import Mathlib

/-!
Verification of the `epub_toc` EPUB table-of-contents parser
(`src/epub_toc/parser.py`) against its natural-language specification.

The Python module is shallowly embedded below: pure fragments become Lean
functions, exception-raising code returns `Except Err`, and the stateful
parser session (`EPUBTOCParser`) becomes explicit state passing.  External
collaborators (the metadata library, the ZIP reader, the XML parser, the
calibre subprocess) are modelled as abstract inputs, exactly at the
boundary where `parser.py` consumes their results.
-/

namespace EpubToc

/-- Error taxonomy of the package.  The class bodies live in
`epub_toc/exceptions.py` (re-exported by `epub_toc/__init__.py`); they are
plain exception carriers with a message, raised by `parser.py`.
`indexError` models Python's built-in `IndexError` (empty-stack access). -/
inductive Err where
  | validationError (msg : String)
  | extractionError (msg : String)
  | structureError (msg : String)
  | indexError
deriving Repr, DecidableEq

/-- `str(e)` on a caught exception: the message it carries. -/
def Err.message : Err → String
  | .validationError m => m
  | .extractionError m => m
  | .structureError m => m
  | .indexError => "list index out of range"

/-- `TOCItem` (parser.py lines 40-94): title, href, nesting level, ordered
children, optional description.  `level` is a Python `int`, hence `Int`
here; non-negativity is enforced by `validate_fields`, not by the type. -/
inductive TOCItem where
  | mk (title : String) (href : String) (level : Int)
       (children : List TOCItem) (description : Option String) : TOCItem
deriving Repr

def TOCItem.title : TOCItem → String
  | .mk t _ _ _ _ => t

def TOCItem.href : TOCItem → String
  | .mk _ h _ _ _ => h

def TOCItem.level : TOCItem → Int
  | .mk _ _ l _ _ => l

def TOCItem.children : TOCItem → List TOCItem
  | .mk _ _ _ c _ => c

def TOCItem.description : TOCItem → Option String
  | .mk _ _ _ _ d => d

/-- The nested-mapping (dict) representation produced by `TOCItem.to_dict`
and consumed by `TOCItem.from_dict` (parser.py lines 120-178).  The keys
`title`, `href`, `level`, `children` are always present in a dict produced
by `to_dict`; `description = none` models the `description` key being
absent. -/
inductive TOCDict where
  | mk (title : String) (href : String) (level : Int)
       (children : List TOCDict) (description : Option String) : TOCDict
deriving Repr

def TOCDict.title : TOCDict → String
  | .mk t _ _ _ _ => t

/-- `TOCItem.validate_fields` (parser.py lines 96-118).  In Python the
checks are: `not title or not isinstance(title, str)`,
`not isinstance(href, str)`, `not isinstance(level, int) or level < 0`.
In this typed embedding the `isinstance` tests are discharged by the
types, leaving the emptiness and sign checks. -/
def validate_fields (title : String) (_href : String) (level : Int) :
    Except Err Unit :=
  if title = "" then
    .error (.validationError "Title must be a non-empty string")
  else if level < 0 then
    .error (.validationError "Level must be a non-negative integer")
  else
    .ok ()

/-- `TOCItem.__init__` (parser.py lines 76-94): validates the fields, then
stores them; `children or []` defaults a missing/empty value to the empty
list; `description` starts as `None`. -/
def TOCItem.make (title : String) (href : String) (level : Int)
    (children : Option (List TOCItem)) : Except Err TOCItem := do
  let _ ← validate_fields title href level
  .ok (.mk title href level (children.getD []) none)

/-- `item.description = data['description']` when the key is present
(parser.py lines 176-177); absent key leaves the field untouched. -/
def TOCItem.setDescription : TOCItem → Option String → TOCItem
  | item, none => item
  | .mk t h l cs _, some v => .mk t h l cs (some v)

mutual
/-- `TOCItem.to_dict` (parser.py lines 120-142): all four data keys, plus
`description` only if it is set. -/
def TOCItem.to_dict : TOCItem → TOCDict
  | .mk t h l cs d => .mk t h l (toDictList cs) d

/-- `[child.to_dict() for child in self.children]`. -/
def toDictList : List TOCItem → List TOCDict
  | [] => []
  | c :: cs => c.to_dict :: toDictList cs
end

mutual
/-- `TOCItem.from_dict` (parser.py lines 144-178).  On a dict of type
`TOCDict` the three required keys are always present, so the
missing-fields check passes; the children are rebuilt recursively, the
constructor re-validates the fields, and a present `description` key is
assigned afterwards. -/
def TOCItem.from_dict : TOCDict → Except Err TOCItem
  | .mk t h l cs d => do
      let children ← fromDictList cs
      let item ← TOCItem.make t h l (some children)
      .ok (item.setDescription d)

/-- `[cls.from_dict(child) for child in data.get('children', [])]`. -/
def fromDictList : List TOCDict → Except Err (List TOCItem)
  | [] => .ok []
  | c :: cs => do
      let i ← TOCItem.from_dict c
      let rest ← fromDictList cs
      .ok (i :: rest)
end

mutual
/-- A tree every node of which satisfies `validate_fields` — i.e. a tree
that can only have been built through the `TOCItem` constructor. -/
def validItem : TOCItem → Bool
  | .mk t _ l cs _ => (decide (t ≠ "")) && (decide (0 ≤ l)) && validList cs

def validList : List TOCItem → Bool
  | [] => true
  | c :: cs => validItem c && validList cs
end

mutual
/-- The hierarchy invariant: recursively, every child's level is strictly
greater than its parent's. -/
def hierOK : TOCItem → Bool
  | .mk _ _ l cs _ => hierList l cs

def hierList (plevel : Int) : List TOCItem → Bool
  | [] => true
  | c :: cs => (decide (plevel < c.level)) && hierOK c && hierList plevel cs
end

mutual
/-- `validate_item` inside `_validate_toc_structure` (parser.py lines
332-344): the `isinstance` check is discharged by the type; then each
child is validated recursively and its level compared with the parent's.
The `path` argument only feeds the error message. -/
def validate_item : TOCItem → String → Except Err Unit
  | .mk _ _ l cs _, path => validateChildren l cs path 0

def validateChildren (plevel : Int) : List TOCItem → String → Nat → Except Err Unit
  | [], _, _ => .ok ()
  | c :: cs, path, i => do
      let _ ← validate_item c (path ++ "->child[" ++ toString i ++ "]")
      if c.level ≤ plevel then
        .error (.validationError
          (path ++ "->child[" ++ toString i ++ "]: Child level must be greater than parent level"))
      else
        validateChildren plevel cs path (i + 1)
end

/-- Iterating `for i, item in enumerate(toc_items): validate_item(item, f"item[{i}]")`. -/
def validateRoots : List TOCItem → Nat → Except Err Unit
  | [], _ => .ok ()
  | item :: rest, i => do
      let _ ← validate_item item ("item[" ++ toString i ++ "]")
      validateRoots rest (i + 1)

/-- `EPUBTOCParser._validate_toc_structure` (parser.py lines 318-347).
The `isinstance(toc_items, list)` check is discharged by the type. -/
def validate_toc_structure (toc_items : List TOCItem) : Except Err Unit :=
  if toc_items.isEmpty then .error (.validationError "TOC cannot be empty")
  else validateRoots toc_items 0

/-- What `_validate_file` can observe about the ZIP container:
whether `META-INF/container.xml` is a member, and the outcome of parsing
it — `none` when `etree.fromstring` raises (malformed XML), `some k` when
it parses and `findall` locates `k` rootfile declarations. -/
structure ZipView where
  hasContainerXml : Bool
  containerRootfiles : Option Nat
deriving Repr, DecidableEq

/-- What `_validate_file` can observe about the path: existence,
directory-ness, the lower-cased extension (`Path.suffix.lower()`), and
the result of opening it as a ZIP — `none` when `zipfile.ZipFile`
raises `BadZipFile`. -/
structure EpubPath where
  pathExists : Bool
  isDir : Bool
  suffixLower : String
  zip : Option ZipView
deriving Repr, DecidableEq

/-- `EPUBTOCParser._validate_file` (parser.py lines 249-283).  Checks run
in source order: existence, extension, directory, then the ZIP block.
A `StructureError` raised inside the `try` block (missing container, zero
rootfiles) is caught by the generic `except Exception` handler and
re-raised wrapped in `"Invalid EPUB structure: ..."`; `BadZipFile` has its
own handler.  The function only reads; it is pure here as in the source. -/
def validate_file (p : EpubPath) : Except Err Unit :=
  if !p.pathExists then .error (.validationError "File not found")
  else if p.suffixLower ≠ ".epub" then .error (.validationError "Not an EPUB file")
  else if p.isDir then .error (.validationError "Path points to a directory")
  else match p.zip with
    | none => .error (.structureError "File is not a valid ZIP archive")
    | some z =>
      if !z.hasContainerXml then
        .error (.structureError
          "Invalid EPUB structure: Missing required files: [META-INF/container.xml]")
      else match z.containerRootfiles with
        | none => .error (.structureError "Invalid EPUB structure: XML syntax error")
        | some k =>
          if k = 0 then
            .error (.structureError "Invalid EPUB structure: No rootfiles found in container.xml")
          else .ok ()

/-- `EPUBTOCParser.EXTRACTION_METHODS` (parser.py lines 210-217): the
canonical `(name, method_attr)` list. -/
def EXTRACTION_METHODS : List (String × String) :=
  [("epub_meta", "_extract_from_epub_meta"),
   ("ncx", "_extract_from_ncx"),
   ("opf", "_extract_from_opf"),
   ("ebooklib", "_extract_from_ebooklib"),
   ("tika", "_extract_from_tika"),
   ("calibre", "_extract_from_calibre")]

/-- The mutable parser session state: the configured methods and the
`self.toc` slot (assigned on a successful extraction). -/
structure ParserState where
  active_methods : List (String × String)
  toc : Option (List TOCItem)
deriving Repr

/-- `EPUBTOCParser.__init__` (parser.py lines 219-247).  With an explicit
`extraction_methods` list: an empty list fails; otherwise
`EXTRACTION_METHODS` is filtered by membership — note this keeps the
canonical order, not the caller's order, and silently drops unrecognized
names; no recognized name fails.  Then `_validate_file` runs. -/
def parserInit (p : EpubPath) (extraction_methods : Option (List String)) :
    Except Err ParserState := do
  let active ← match extraction_methods with
    | some ms =>
        if ms.isEmpty then
          Except.error (Err.validationError "No extraction methods specified")
        else
          let act := EXTRACTION_METHODS.filter (fun nm => ms.contains nm.1)
          if act.isEmpty then
            Except.error (Err.validationError "No valid extraction methods found")
          else Except.ok act
    | none => Except.ok EXTRACTION_METHODS
  let _ ← validate_file p
  .ok ⟨active, none⟩

/-- The observable behaviour of one extraction backend on the session's
archive: `method()` either raises or returns `None` / a list of items.
`extract_toc` treats the backends as black boxes through exactly this
interface (`method = getattr(self, method_attr); result = method()`),
so a backend is modelled as a function from its `method_attr` string to
an outcome. -/
inductive MethodOutcome where
  | raises (msg : String)
  | returns (r : Option (List TOCItem))

/-- `"\n".join(f"- {name}: {error}" for name, error in errors.items())`. -/
def joinErrors (errors : List (String × String)) : String :=
  String.intercalate "\n" (errors.map (fun e => "- " ++ e.1 ++ ": " ++ e.2))

/-- The result of one `extract_toc` call: the returned value or raised
error, the session state afterwards, and the names of the backends that
were invoked during the call (in invocation order). -/
structure ExtractOutcome where
  result : Except Err (List TOCDict)
  toc : Option (List TOCItem)
  invoked : List String

/-- The `for method_name, method_attr in self.active_methods` loop of
`extract_toc` (parser.py lines 296-316).  A raised exception (from the
backend or from `_validate_toc_structure`) is caught and recorded in
`errors`; a falsy result (`None` or `[]`) is skipped silently — nothing
is recorded; the first truthy result that passes structure validation is
assigned to `self.toc` and returned as dicts.  When the loop ends, the
recorded errors are joined into the `ExtractionError` message. -/
def extractLoop (behav : String → MethodOutcome) :
    List (String × String) → List (String × String) → ExtractOutcome
  | [], errors =>
      ⟨.error (.extractionError ("All extraction methods failed:\n" ++ joinErrors errors)),
       none, []⟩
  | (name, attr) :: rest, errors =>
      match behav attr with
      | .raises m =>
          let o := extractLoop behav rest (errors ++ [(name, m)])
          ⟨o.result, o.toc, name :: o.invoked⟩
      | .returns none =>
          let o := extractLoop behav rest errors
          ⟨o.result, o.toc, name :: o.invoked⟩
      | .returns (some l) =>
          if l.isEmpty then
            let o := extractLoop behav rest errors
            ⟨o.result, o.toc, name :: o.invoked⟩
          else
            match validate_toc_structure l with
            | .error e =>
                let o := extractLoop behav rest (errors ++ [(name, e.message)])
                ⟨o.result, o.toc, name :: o.invoked⟩
            | .ok _ => ⟨.ok (toDictList l), some l, [name]⟩

/-- `EPUBTOCParser.extract_toc` (parser.py lines 285-316).  Note that the
loop starts from scratch on every call: the stored `self.toc` is never
consulted, only overwritten on success. -/
def extract_toc (st : ParserState) (behav : String → MethodOutcome) :
    Except Err (List TOCDict) × ParserState × List String :=
  let o := extractLoop behav st.active_methods []
  (o.result,
   { st with toc := match o.toc with | some l => some l | none => st.toc },
   o.invoked)

/-- Python dict assignment `d[k] = v` on a dict represented as a keyed
list in insertion order. -/
def dictInsert (d : List (String × String)) (k v : String) : List (String × String) :=
  if d.any (fun kv => kv.1 == k) then d.map (fun kv => if kv.1 == k then (k, v) else kv)
  else d ++ [(k, v)]

/-- Python `k in d` / `d[k]` on the same representation. -/
def dictGet? (d : List (String × String)) (k : String) : Option String :=
  (d.find? (fun kv => kv.1 == k)).map (fun kv => kv.2)

/-- The `id -> href` mapping built from the OPF manifest (parser.py lines
481-486): each item's `id` and `href` attributes (`none` = attribute
absent); the entry is stored only when both are truthy (present and
non-empty). -/
def idToHref (items : List (Option String × Option String)) : List (String × String) :=
  items.foldl
    (fun d it =>
      match it with
      | (some i, some h) => if i = "" || h = "" then d else dictInsert d i h
      | _ => d)
    []

/-- The `for i, itemref in enumerate(spine.findall(...))` loop of
`_extract_from_opf` (parser.py lines 489-497): the counter runs over all
item-references, but a node is emitted only when the `idref` attribute is
a key of the manifest mapping.  Titles are `f'Chapter {i+1}'`; the
constructed `TOCItem` always passes field validation (non-empty title,
level 0), so the constructor is applied directly. -/
def opfSpineItems (m : List (String × String)) : List (Option String) → Nat → List TOCItem
  | [], _ => []
  | idref :: rest, i =>
      match idref.bind (fun r => dictGet? m r) with
      | some h => TOCItem.mk ("Chapter " ++ toString (i + 1)) h 0 [] none :: opfSpineItems m rest (i + 1)
      | none => opfSpineItems m rest (i + 1)

/-- What `_extract_from_opf` observes of the archive once the first
`.opf` member has been parsed: the spine's `idref` attributes in document
order and the manifest's `(id, href)` attribute pairs; `none` at the
outer level models "no `.opf` member, or reading/parsing it raised"
(caught, `None` returned), `none` for spine/manifest models the element
being absent. -/
structure OpfView where
  spine : Option (List (Option String))
  manifest : Option (List (Option String × Option String))
deriving Repr

/-- `EPUBTOCParser._extract_from_opf` (parser.py lines 454-508). -/
def extract_from_opf (doc : Option OpfView) : Option (List TOCItem) :=
  match doc with
  | none => none
  | some d =>
    match d.spine, d.manifest with
    | some sp, some mf =>
        let result := opfSpineItems (idToHref mf) sp 0
        if result.isEmpty then none else some result
    | _, _ => none

/-- One entry of the flat-to-tree reconstruction stack: the sibling list
being appended to, and the level key it was pushed with.  The bottom
entry is `([], -1)`, from `stack = [(result, -1)]`. -/
abbrev Frame := List TOCItem × Int

def TOCItem.withChildren : TOCItem → List TOCItem → TOCItem
  | .mk t h l _ d, cs => .mk t h l cs d

/-- In Python every pushed list is `toc_item.children`, an alias of the
children of the last item appended to the frame below; functionally,
popping a frame installs its accumulated list as the children of that
last item. -/
def installLast (parent : List TOCItem) (cs : List TOCItem) : List TOCItem :=
  match parent.getLast? with
  | none => parent
  | some e => parent.dropLast ++ [e.withChildren cs]

/-- `while level <= stack[-1][1]: stack.pop()`.  Popping the bottom frame
leaves the empty stack, on which the next `stack[-1]` access raises
`IndexError` (modelled by the `[]` result, turned into the error by
`stackStep`). -/
def popFrames (lvl : Int) : List Frame → List Frame
  | [] => []
  | [(cs, l)] => if lvl ≤ l then [] else [(cs, l)]
  | (cs, l) :: (cs', l') :: rest =>
      if lvl ≤ l then popFrames lvl ((installLast cs' cs, l') :: rest)
      else (cs, l) :: (cs', l') :: rest
termination_by s => s.length
decreasing_by simp

/-- One iteration of the reconstruction loop shared verbatim by
`_extract_from_epub_meta` (parser.py lines 366-378) and
`_extract_from_calibre` (lines 612-631): pop while the top's level is ≥
the current item's level, build the `TOCItem` (its constructor validates
the fields), append it to the new top's list and push its (empty)
children list keyed by the item's level. -/
def stackStep (title href : String) (lvl : Int) (s : List Frame) :
    Except Err (List Frame) :=
  match popFrames lvl s with
  | [] => .error .indexError
  | (cs, l) :: rest => do
      let item ← TOCItem.make title href lvl none
      .ok (([], lvl) :: (cs ++ [item], l) :: rest)

/-- At loop end, every still-open children list is (by aliasing) already
the children of the last item one frame down; closing the stack installs
each frame into the one below, leaving the bottom `result` list. -/
def closeAll : List Frame → List TOCItem
  | [] => []
  | [(cs, _)] => cs
  | (cs, _) :: (cs', l') :: rest => closeAll ((installLast cs' cs, l') :: rest)
termination_by s => s.length
decreasing_by simp

/-- The shared stack-based reconstruction of a flat, level-tagged
sequence of `(title, href, level)` items, from `stack = [(result, -1)]`
to the final `result`. -/
def stackBuild (items : List (String × String × Int)) : Except Err (List TOCItem) := do
  let s ← items.foldlM (fun s it => stackStep it.1 it.2.1 it.2.2 s)
            [(([] : List TOCItem), (-1 : Int))]
  .ok (closeAll s)

/-- One raw `toc` entry as returned by the `epub_meta` library: the
values of the `level`, `title` and `src` keys (`none` = key absent, so
`.get` falls back to its default). -/
structure EpubMetaRawItem where
  level : Option Int
  title : Option String
  src : Option String
deriving Repr

/-- `EPUBTOCParser._extract_from_epub_meta` (parser.py lines 349-384):
`metadata.get('toc')` (`none` models a missing or falsy value, and a
raised `get_epub_metadata` is caught to the same `None`), then the shared
stack reconstruction over `(title, src, level)` with `.get` defaults; any
exception inside the loop is caught and `None` returned. -/
def extract_from_epub_meta (metadataToc : Option (List EpubMetaRawItem)) :
    Option (List TOCItem) :=
  match metadataToc with
  | none => none
  | some toc =>
    if toc.isEmpty then none
    else
      match stackBuild (toc.map (fun it => (it.title.getD "", it.src.getD "", it.level.getD 0))) with
      | .ok r => some r
      | .error _ => none

/-- Decoding one non-blank calibre output line (parser.py lines 616-623):
level = number of leading whitespace characters, then strip, split on
`" -> "`, title = first part stripped, href = second part stripped when
present. -/
def calibreParseLine (line : String) : String × String × Int :=
  let level : Int := ((line.toList.takeWhile (fun c => c.isWhitespace)).length : Int)
  let stripped := line.trim
  let parts := stripped.splitOn " -> "
  let title := (parts.headD "").trim
  let href := match parts with
    | _ :: p :: _ => p.trim
    | _ => ""
  (title, href, level)

/-- `EPUBTOCParser._extract_from_calibre` (parser.py lines 592-642): the
subprocess output (`none` models a raised subprocess error), blank-line
filtering, per-line decoding, the same shared stack reconstruction, and
the final `if not result: return None` emptiness check. -/
def extract_from_calibre (stdout : Option String) : Option (List TOCItem) :=
  match stdout with
  | none => none
  | some out =>
    if out.trim = "" then none
    else
      let lines := (out.trim.splitOn "\n").filter (fun l => l.trim ≠ "")
      match stackBuild (lines.map calibreParseLine) with
      | .ok r => if r.isEmpty then none else some r
      | .error _ => none

/-- Modelled from the spec (the wording of claim C8): attach the new item
inside tree `r` as a child of the most recent preceding item whose level
is strictly smaller — i.e. descend the rightmost spine while the spine
node's level is strictly smaller than the item's, and append the item to
the children of the deepest such node. -/
def specAttach (x : TOCItem) (r : TOCItem) : TOCItem :=
  match hc : r.children.getLast? with
  | some c =>
      if c.level < x.level then r.withChildren (r.children.dropLast ++ [specAttach x c])
      else r.withChildren (r.children ++ [x])
  | none => r.withChildren (r.children ++ [x])
termination_by sizeOf r
decreasing_by
  have hm : c ∈ r.children := List.mem_of_mem_getLast? hc
  have h1 := List.sizeOf_lt_of_mem hm
  have h2 : sizeOf r.children < sizeOf r := by
    cases r
    simp only [TOCItem.children, TOCItem.mk.sizeOf_spec]
    omega
  omega

/-- Modelled from the spec (the wording of claim C8): a new item becomes
a child of the most recent preceding item of strictly smaller level when
one exists — necessarily on the rightmost spine of the last root — and a
new top-level root otherwise, preserving input order. -/
def specInsert (forest : List TOCItem) (x : TOCItem) : List TOCItem :=
  match forest.getLast? with
  | some r => if r.level < x.level then forest.dropLast ++ [specAttach x r] else forest ++ [x]
  | none => [x]

/-- Modelled from the spec (the wording of claim C8): the whole flat,
level-tagged sequence folded through `specInsert`. -/
def specBuild (items : List (String × String × Int)) : List TOCItem :=
  items.foldl (fun f it => specInsert f (.mk it.1 it.2.1 it.2.2 [] none)) []

/-- A fully well-formed path for concrete runs: exists, not a directory,
`.epub` extension, valid ZIP whose container parses with one rootfile. -/
def goodEpubPath : EpubPath := ⟨true, false, ".epub", some ⟨true, some 1⟩⟩

/-- A path that does not exist. -/
def missingEpubPath : EpubPath := ⟨false, false, ".epub", none⟩

/-- Backend behaviour: every method returns `None` (absent). -/
def behavAllAbsent : String → MethodOutcome := fun _ => .returns none

/-- Backend behaviour: `_extract_from_epub_meta` returns one item, every
other method returns absent. -/
def behavMetaOnly : String → MethodOutcome := fun attr =>
  if attr = "_extract_from_epub_meta" then .returns (some [TOCItem.mk "A" "a.html" 0 [] none])
  else .returns none

/-- Backend behaviour: the `epub_meta` and `ncx` methods both succeed,
with different content. -/
def behavMetaNcx : String → MethodOutcome := fun attr =>
  if attr = "_extract_from_epub_meta" then .returns (some [TOCItem.mk "META" "m.html" 0 [] none])
  else if attr = "_extract_from_ncx" then .returns (some [TOCItem.mk "NCX" "n.html" 0 [] none])
  else .returns none

/-- Well-formedness of adjacent reconstruction-stack frames: the lower
frame's level is strictly smaller, the lower frame's list is non-empty,
and its last element is the item whose (aliased) children list the upper
frame is — pushed with that item's level. -/
def frameRel (upper lower : Frame) : Prop :=
  lower.2 < upper.2 ∧ ∃ e, lower.1.getLast? = some e ∧ e.level = upper.2

/-- A well-formed reconstruction stack (head = top): adjacent frames
satisfy `frameRel` and the bottom frame carries the base level `-1`. -/
def WFStack (s : List Frame) : Prop :=
  List.Chain' frameRel s ∧ (s.map Prod.snd).getLast? = some (-1)

/-- The frame list on which an insertion at level `lvl` stops: it is
empty, or its last element's level is at least `lvl`. -/
def stopsAt (cs : List TOCItem) (lvl : Int) : Prop :=
  cs = [] ∨ ∃ e, cs.getLast? = some e ∧ lvl ≤ e.level

/-- A node reachable from the root collection: a root, or a child of a
reachable node. -/
inductive Reachable (roots : List TOCItem) : TOCItem → Prop where
  | root {n : TOCItem} : n ∈ roots → Reachable roots n
  | child {p n : TOCItem} : Reachable roots p → n ∈ p.children → Reachable roots n

/-- A string is empty after trimming whitespace iff all of its characters
are whitespace. -/
def trimsToEmpty (s : String) : Bool :=
  s.toList.all (fun c => c.isWhitespace)

/-- Structural induction over `TOCItem` with the induction hypothesis
available for every member of the children list. -/
def TOCItem.strongRec {P : TOCItem → Prop}
    (h : ∀ t hr l cs d, (∀ c ∈ cs, P c) → P (TOCItem.mk t hr l cs d)) : ∀ n, P n
  | .mk t hr l cs d => h t hr l cs d (fun c hc => TOCItem.strongRec h c)
termination_by n => sizeOf n
decreasing_by
  simp only [TOCItem.mk.sizeOf_spec]
  have := List.sizeOf_lt_of_mem hc
  omega

@[simp] theorem exceptBindError {α β : Type} (e : Err) (f : α → Except Err β) :
    (Except.error e : Except Err α) >>= f = .error e := rfl

@[simp] theorem exceptBindOk {α β : Type} (a : α) (f : α → Except Err β) :
    (Except.ok a : Except Err α) >>= f = f a := rfl

theorem validList_mem {cs : List TOCItem} (h : validList cs = true) {c : TOCItem}
    (hc : c ∈ cs) : validItem c = true := by
  induction cs with
  | nil => cases hc
  | cons a rest ih =>
    simp only [validList, Bool.and_eq_true] at h
    cases hc with
    | head => exact h.1
    | tail _ hm => exact ih h.2 hm

theorem validItem_title_level {n : TOCItem} (h : validItem n = true) :
    n.title ≠ "" ∧ 0 ≤ n.level ∧ validList n.children = true := by
  cases n with
  | mk t hr l cs d =>
    simp only [validItem, Bool.and_eq_true, decide_eq_true_eq] at h
    exact ⟨h.1.1, h.1.2, h.2⟩

theorem reachable_valid {roots : List TOCItem} (hv : validList roots = true)
    {n : TOCItem} (hr : Reachable roots n) : validItem n = true := by
  induction hr with
  | root hm => exact validList_mem hv hm
  | child _ hm ih => exact validList_mem (validItem_title_level ih).2.2 hm

theorem validateChildren_ok_iff
    (cs : List TOCItem)
    (hIH : ∀ c ∈ cs, ∀ path, (validate_item c path = .ok ()) ↔ hierOK c = true) :
    ∀ plevel path i, (validateChildren plevel cs path i = .ok ()) ↔ hierList plevel cs = true := by
  induction cs with
  | nil => intro plevel path i; simp [validateChildren, hierList]
  | cons c rest ih =>
    intro plevel path i
    have hc := hIH c (by simp)
    have hrest := ih (fun c' hm => hIH c' (List.mem_cons_of_mem _ hm))
    simp only [validateChildren, hierList]
    cases hv : validate_item c (path ++ "->child[" ++ toString i ++ "]") with
    | error e =>
      have : hierOK c = false := by
        have := (hc (path ++ "->child[" ++ toString i ++ "]")).2
        by_contra hcon
        simp only [Bool.not_eq_false] at hcon
        simp [this hcon] at hv
      simp [Except.bind, hv, this]
    | ok u =>
      cases u
      have hhc : hierOK c = true := (hc _).1 hv
      by_cases hl : c.level ≤ plevel
      · have : ¬ plevel < c.level := not_lt.mpr hl
        simp [Except.bind, hv, hl, this]
      · have : plevel < c.level := not_le.mp hl
        simp [Except.bind, hv, hl, this, hhc, hrest plevel path (i + 1)]

theorem validate_item_ok_iff :
    ∀ (n : TOCItem) (path : String), (validate_item n path = .ok ()) ↔ hierOK n = true := by
  intro n
  induction n using TOCItem.strongRec with
  | h t hr l cs d ih =>
    intro path
    have := validateChildren_ok_iff cs ih l path 0
    simpa [validate_item, hierOK] using this

theorem validateChildren_err
    (cs : List TOCItem)
    (hIH : ∀ c ∈ cs, ∀ path, (validate_item c path = .ok ()) ∨
      ∃ m, validate_item c path = .error (.validationError m)) :
    ∀ plevel path i, (validateChildren plevel cs path i = .ok ()) ∨
      ∃ m, validateChildren plevel cs path i = .error (.validationError m) := by
  induction cs with
  | nil => intro plevel path i; left; simp [validateChildren]
  | cons c rest ih =>
    intro plevel path i
    have hc := hIH c (by simp) (path ++ "->child[" ++ toString i ++ "]")
    have hrest := ih (fun c' hm => hIH c' (List.mem_cons_of_mem _ hm)) plevel path (i + 1)
    simp only [validateChildren]
    cases hc with
    | inl hok =>
      by_cases hl : c.level ≤ plevel
      · right
        exact ⟨path ++ "->child[" ++ toString i ++ "]: Child level must be greater than parent level",
          by simp [Except.bind, hok, hl]⟩
      · cases hrest with
        | inl h2 => left; simp [Except.bind, hok, hl, h2]
        | inr h2 =>
          obtain ⟨m, hm⟩ := h2
          right; exact ⟨m, by simp [Except.bind, hok, hl, hm]⟩
    | inr herr =>
      obtain ⟨m, hm⟩ := herr
      right; exact ⟨m, by simp [Except.bind, hm]⟩

theorem validate_item_err :
    ∀ (n : TOCItem) (path : String), (validate_item n path = .ok ()) ∨
      ∃ m, validate_item n path = .error (.validationError m) := by
  intro n
  induction n using TOCItem.strongRec with
  | h t hr l cs d ih =>
    intro path
    have := validateChildren_err cs ih l path 0
    simpa [validate_item] using this

theorem validateRoots_ok_iff :
    ∀ (toc : List TOCItem) (i : Nat), (validateRoots toc i = .ok ()) ↔ toc.all hierOK = true := by
  intro toc
  induction toc with
  | nil => intro i; simp [validateRoots]
  | cons item rest ih =>
    intro i
    simp only [validateRoots, List.all_cons, Bool.and_eq_true]
    cases hv : validate_item item ("item[" ++ toString i ++ "]") with
    | error e =>
      have : hierOK item = false := by
        by_contra hcon
        simp only [Bool.not_eq_false] at hcon
        have := (validate_item_ok_iff item ("item[" ++ toString i ++ "]")).2 hcon
        simp [this] at hv
      simp [Except.bind, hv, this]
    | ok u =>
      cases u
      have : hierOK item = true := (validate_item_ok_iff item _).1 hv
      simp [Except.bind, hv, this, ih (i + 1)]

theorem validateRoots_err :
    ∀ (toc : List TOCItem) (i : Nat), (validateRoots toc i = .ok ()) ∨
      ∃ m, validateRoots toc i = .error (.validationError m) := by
  intro toc
  induction toc with
  | nil => intro i; left; simp [validateRoots]
  | cons item rest ih =>
    intro i
    simp only [validateRoots]
    cases validate_item_err item ("item[" ++ toString i ++ "]") with
    | inl hok =>
      cases ih (i + 1) with
      | inl h2 => left; simp [Except.bind, hok, h2]
      | inr h2 =>
        obtain ⟨m, hm⟩ := h2
        right; exact ⟨m, by simp [Except.bind, hok, hm]⟩
    | inr herr =>
      obtain ⟨m, hm⟩ := herr
      right; exact ⟨m, by simp [Except.bind, hm]⟩

/-- C5: a root collection is accepted by `_validate_toc_structure` iff it
is non-empty and, recursively at every depth, each child's level is
strictly greater than its parent's; every rejection is a
`ValidationError`. -/
theorem c5_hierarchy_validation (toc : List TOCItem) :
    ((validate_toc_structure toc = .ok ()) ↔ (toc ≠ [] ∧ toc.all hierOK = true)) ∧
    ((validate_toc_structure toc = .ok ()) ∨
      ∃ m, validate_toc_structure toc = .error (.validationError m)) := by
  constructor
  · cases htoc : toc with
    | nil => simp [validate_toc_structure]
    | cons a rest =>
      have hne : (a :: rest).isEmpty = false := rfl
      simp only [validate_toc_structure, hne, Bool.false_eq_true, if_false]
      rw [validateRoots_ok_iff]
      simp
  · cases htoc : toc with
    | nil => right; exact ⟨"TOC cannot be empty", by simp [validate_toc_structure]⟩
    | cons a rest =>
      have hne : (a :: rest).isEmpty = false := rfl
      simp only [validate_toc_structure, hne, Bool.false_eq_true, if_false]
      exact validateRoots_err (a :: rest) 0

/-- C5 witness: the theorem applied at a concrete accepted tree and at a
concrete rejected tree (child level equal to the parent's). -/
theorem c5_hierarchy_validation_witness :
    (validate_toc_structure [TOCItem.mk "a" "a.html" 0 [TOCItem.mk "b" "b.html" 1 [] none] none]
      = .ok ()) ∧
    (validate_toc_structure [TOCItem.mk "a" "a.html" 0 [TOCItem.mk "b" "b.html" 0 [] none] none]
      ≠ .ok ()) := by
  constructor
  · exact (c5_hierarchy_validation _).1.2 ⟨List.cons_ne_nil _ _, rfl⟩
  · intro hok
    have h2 := ((c5_hierarchy_validation
      [TOCItem.mk "a" "a.html" 0 [TOCItem.mk "b" "b.html" 0 [] none] none]).1.1 hok).2
    have h3 : ([TOCItem.mk "a" "a.html" 0 [TOCItem.mk "b" "b.html" 0 [] none] none].all hierOK)
        = false := rfl
    rw [h3] at h2
    exact absurd h2 (by decide)

/-- C4 counterexample: the claim fails on the code — a node whose title
is whitespace-only and whose href is empty is accepted by the `TOCItem`
constructor and passes `_validate_toc_structure`, although both fields
are empty after trimming whitespace.  Neither the constructor nor the
structure validator ever trims or checks `href` for emptiness. -/
theorem c4_counterexample :
    TOCItem.make " " "" 0 none = .ok (TOCItem.mk " " "" 0 [] none) ∧
    validate_toc_structure [TOCItem.mk " " "" 0 [] none] = .ok () ∧
    trimsToEmpty " " = true ∧ trimsToEmpty "" = true := by
  refine ⟨rfl, rfl, ?_, ?_⟩ <;> decide

/-- C4 (amended): every node reachable from a validated root collection
whose nodes were built through the `TOCItem` constructor has a title that
is non-empty before trimming and a non-negative level; trimmed
non-emptiness of the title and any condition on `href` are not
guaranteed. -/
theorem c4_reachable_title (roots : List TOCItem) (n : TOCItem)
    (hv : validList roots = true) (_hs : validate_toc_structure roots = .ok ())
    (hr : Reachable roots n) : n.title ≠ "" ∧ 0 ≤ n.level := by
  have h := reachable_valid hv hr
  exact ⟨(validItem_title_level h).1, (validItem_title_level h).2.1⟩

/-- C4 witness: the amended theorem applied to a concrete validated
two-level tree, at its nested child node. -/
theorem c4_reachable_title_witness :
    (TOCItem.mk "b" "b.html" 1 [] none).title ≠ "" ∧
    0 ≤ (TOCItem.mk "b" "b.html" 1 [] none).level := by
  refine c4_reachable_title
    [TOCItem.mk "a" "a.html" 0 [TOCItem.mk "b" "b.html" 1 [] none] none]
    (TOCItem.mk "b" "b.html" 1 [] none) rfl rfl ?_
  exact @Reachable.child _
    (TOCItem.mk "a" "a.html" 0 [TOCItem.mk "b" "b.html" 1 [] none] none)
    (TOCItem.mk "b" "b.html" 1 [] none)
    (Reachable.root (by simp)) (by simp [TOCItem.children])

theorem fromDict_toDict_list :
    ∀ (cs : List TOCItem),
      (∀ c ∈ cs, validItem c = true → TOCItem.from_dict c.to_dict = .ok c) →
      validList cs = true → fromDictList (toDictList cs) = .ok cs := by
  intro cs
  induction cs with
  | nil => intro _ _; rfl
  | cons c rest ih =>
    intro hIH hv
    simp only [validList, Bool.and_eq_true] at hv
    simp only [toDictList, fromDictList]
    rw [hIH c (by simp) hv.1]
    simp only [exceptBindOk]
    rw [ih (fun c' hm h => hIH c' (List.mem_cons_of_mem _ hm) h) hv.2]
    rfl

/-- C6: for every `TOCItem` tree whose nodes all pass field validation
(title non-empty, level non-negative) — i.e. every tree the constructor
can have built, nested children and optional descriptions included —
`from_dict (to_dict n)` rebuilds `n` exactly, field by field. -/
theorem c6_roundtrip : ∀ (n : TOCItem), validItem n = true →
    TOCItem.from_dict n.to_dict = .ok n := by
  intro n
  induction n using TOCItem.strongRec with
  | h t hr l cs d ih =>
    intro hval
    simp only [validItem, Bool.and_eq_true, decide_eq_true_eq] at hval
    simp only [TOCItem.to_dict, TOCItem.from_dict]
    rw [fromDict_toDict_list cs ih hval.2]
    simp only [exceptBindOk]
    have hmk : TOCItem.make t hr l (some cs) = .ok (TOCItem.mk t hr l cs none) := by
      simp [TOCItem.make, validate_fields, hval.1.1, not_lt.mpr hval.1.2, Except.bind]
    rw [hmk]
    simp only [exceptBindOk]
    cases d <;> rfl

/-- C6 witness: the round-trip at a concrete nested tree with a set
description. -/
theorem c6_roundtrip_witness :
    validItem (TOCItem.mk "Part 1" "p1.html" 0
      [TOCItem.mk "Ch 1" "c1.html#s1" 1 [] (some "intro")] (some "front")) = true ∧
    TOCItem.from_dict (TOCItem.mk "Part 1" "p1.html" 0
      [TOCItem.mk "Ch 1" "c1.html#s1" 1 [] (some "intro")] (some "front")).to_dict
      = .ok (TOCItem.mk "Part 1" "p1.html" 0
      [TOCItem.mk "Ch 1" "c1.html#s1" 1 [] (some "intro")] (some "front")) :=
  ⟨rfl, c6_roundtrip _ rfl⟩

/-- C7 counterexample: a file that exists, is not a directory, carries
the `.epub` extension, opens as a valid ZIP and contains
`META-INF/container.xml` whose content is not parseable XML is rejected
with a `StructureError` — a fourth `StructureError` cause beyond the
three the claim lists, where the claim's "succeeds otherwise" requires
success. -/
theorem c7_counterexample :
    validate_file ⟨true, false, ".epub", some ⟨true, none⟩⟩
      = .error (.structureError "Invalid EPUB structure: XML syntax error") ∧
    validate_file ⟨true, false, ".epub", some ⟨true, none⟩⟩ ≠ .ok () := by
  refine ⟨rfl, ?_⟩
  intro h
  have h2 : (Except.error (Err.structureError "Invalid EPUB structure: XML syntax error")
      : Except Err Unit) = .ok () := by
    calc (Except.error (Err.structureError "Invalid EPUB structure: XML syntax error")
        : Except Err Unit)
        = validate_file ⟨true, false, ".epub", some ⟨true, none⟩⟩ := rfl
      _ = .ok () := h
  exact Except.noConfusion h2

/-- C7 (amended): `_validate_file` fails with `ValidationError` exactly
when the path does not exist, is a directory or lacks the `.epub`
extension; fails with `StructureError` exactly when the file is not a
valid ZIP, `META-INF/container.xml` is missing, the container is present
but not parseable as XML, or it declares zero rootfiles; and succeeds
otherwise.  The embedded function is pure: it never mutates the
archive. -/
theorem c7_validate_file_cases (p : EpubPath) :
    ((∃ m, validate_file p = .error (.validationError m)) ↔
      (p.pathExists = false ∨ p.suffixLower ≠ ".epub" ∨ p.isDir = true)) ∧
    ((∃ m, validate_file p = .error (.structureError m)) ↔
      (p.pathExists = true ∧ p.suffixLower = ".epub" ∧ p.isDir = false ∧
        (p.zip = none ∨ ∃ z, p.zip = some z ∧
          (z.hasContainerXml = false ∨ z.containerRootfiles = none ∨
           z.containerRootfiles = some 0)))) ∧
    ((validate_file p = .ok ()) ↔
      (p.pathExists = true ∧ p.suffixLower = ".epub" ∧ p.isDir = false ∧
        ∃ z, p.zip = some z ∧ z.hasContainerXml = true ∧
          ∃ k, z.containerRootfiles = some k ∧ k ≠ 0)) := by
  obtain ⟨pe, pd, sfx, zp⟩ := p
  by_cases hs : sfx = ".epub"
  · cases pe
    · simp [validate_file, hs]
    · cases pd
      · rcases zp with _ | ⟨hc, rc⟩
        · simp [validate_file, hs]
        · cases hc
          · simp [validate_file, hs]
          · rcases rc with _ | k
            · simp [validate_file, hs]
            · by_cases hk : k = 0 <;> simp [validate_file, hs, hk]
      · simp [validate_file, hs]
  · cases pe
    · simp [validate_file, hs]
    · cases pd <;> simp [validate_file, hs]

/-- C7 witness: the amended characterization applied at a concrete fully
well-formed path (success direction). -/
theorem c7_validate_file_cases_witness :
    validate_file ⟨true, false, ".epub", some ⟨true, some 2⟩⟩ = .ok () :=
  (c7_validate_file_cases ⟨true, false, ".epub", some ⟨true, some 2⟩⟩).2.2.mpr
    ⟨rfl, rfl, rfl, ⟨true, some 2⟩, rfl, rfl, 2, rfl, by decide⟩

/-- C3 counterexample: all six methods configured and all returning
absent — the `errors` dict is only populated by raised exceptions, so
the final ExtractionError message is the bare header, referencing no
configured method name (shown here for "ncx" and "epub_meta"). -/
theorem c3_counterexample :
    (extract_toc ⟨EXTRACTION_METHODS, none⟩ behavAllAbsent).1
      = .error (.extractionError "All extraction methods failed:\n") ∧
    ¬ List.IsInfix "ncx".toList ("All extraction methods failed:\n").toList ∧
    ¬ List.IsInfix "epub_meta".toList ("All extraction methods failed:\n").toList := by
  exact ⟨rfl, by decide, by decide⟩

theorem extractLoop_all_absent (behav : String → MethodOutcome) :
    ∀ (active : List (String × String)) (errors : List (String × String)),
      (∀ na ∈ active, behav na.2 = .returns none) →
      (extractLoop behav active errors).result
        = .error (.extractionError ("All extraction methods failed:\n" ++ joinErrors errors)) := by
  intro active
  induction active with
  | nil => intro errors _; rfl
  | cons na rest ih =>
    intro errors hab
    obtain ⟨name, attr⟩ := na
    have h1 : behav attr = .returns none := hab (name, attr) (by simp)
    simp only [extractLoop, h1]
    exact ih errors (fun x hm => hab x (List.mem_cons_of_mem _ hm))

/-- C3 (amended): when every configured method returns absent,
`extract_toc` raises an ExtractionError, but its message is the bare
aggregate header: the per-method error map only records raised
exceptions, so no method name is referenced at all. -/
theorem c3_all_absent (st : ParserState) (behav : String → MethodOutcome)
    (h : ∀ na ∈ st.active_methods, behav na.2 = .returns none) :
    (extract_toc st behav).1
      = .error (.extractionError "All extraction methods failed:\n") := by
  simp only [extract_toc]
  rw [extractLoop_all_absent behav st.active_methods [] h]
  rfl

/-- C3 witness: the amended theorem at the concrete all-absent session. -/
theorem c3_all_absent_witness :
    (extract_toc ⟨EXTRACTION_METHODS, none⟩ behavAllAbsent).1
      = .error (.extractionError "All extraction methods failed:\n") :=
  c3_all_absent ⟨EXTRACTION_METHODS, none⟩ behavAllAbsent (fun _ _ => rfl)

/-- C2 counterexample: after a successful `extract_toc` call the stored
session state is fed back into a second call, which invokes the
`epub_meta` backend again — the invocation list of the repeated call is
`["epub_meta"]`, not `[]`, so extraction is not cached. -/
theorem c2_counterexample :
    (extract_toc ⟨EXTRACTION_METHODS, none⟩ behavMetaOnly).2.2 = ["epub_meta"] ∧
    (extract_toc (extract_toc ⟨EXTRACTION_METHODS, none⟩ behavMetaOnly).2.1
        behavMetaOnly).2.2 = ["epub_meta"] ∧
    (["epub_meta"] : List String) ≠ [] := by
  exact ⟨rfl, rfl, by decide⟩

/-- C2 (amended): `extract_toc` never consults the stored `self.toc`; a
repeated call re-runs the whole loop — re-invoking backends — and,
because the backends are deterministic functions of the archive, returns
the same result, final state and invocation list as the first call. -/
theorem c2_recompute (st : ParserState) (behav : String → MethodOutcome) :
    extract_toc ((extract_toc st behav).2.1) behav = extract_toc st behav := by
  obtain ⟨active, toc⟩ := st
  simp only [extract_toc]
  cases h : (extractLoop behav active []).toc <;> simp [h]

/-- C1: the caller-supplied order is ignored.  `__init__` documents
`extraction_methods` as "method names to use, in priority order", but
the list comprehension filters `EXTRACTION_METHODS` in canonical order:
`['ncx', 'epub_meta']` and `['epub_meta', 'ncx']` configure the identical
session, and on an archive where both succeed with different content the
result is `epub_meta`'s, even when the caller put `ncx` first. -/
theorem c1_order_ignored :
    parserInit goodEpubPath (some ["ncx", "epub_meta"])
      = parserInit goodEpubPath (some ["epub_meta", "ncx"]) ∧
    parserInit goodEpubPath (some ["ncx", "epub_meta"])
      = .ok ⟨[("epub_meta", "_extract_from_epub_meta"), ("ncx", "_extract_from_ncx")], none⟩ ∧
    (extract_toc ⟨[("epub_meta", "_extract_from_epub_meta"), ("ncx", "_extract_from_ncx")], none⟩
        behavMetaNcx).1 = .ok [TOCDict.mk "META" "m.html" 0 [] none] ∧
    ("META" : String) ≠ "NCX" := by
  exact ⟨rfl, rfl, rfl, by decide⟩

/-- C10 counterexample: `"ncx"` is a recognized method name and the
explicit list is non-empty, yet construction raises ValidationError —
because `__init__` also runs `_validate_file`, here on a missing path. -/
theorem c10_counterexample :
    ("ncx" ∈ EXTRACTION_METHODS.map Prod.fst) ∧
    parserInit missingEpubPath (some ["ncx"])
      = .error (.validationError "File not found") := by
  exact ⟨by decide, rfl⟩

/-- C10 (amended): method selection itself behaves as claimed — an
explicit list succeeds iff it is non-empty and names at least one
recognized method, silently discarding unrecognized names (the canonical
list is filtered by membership) — but construction additionally runs
file validation, so it only succeeds when that passes too, and
ValidationError can also arise from the path checks. -/
theorem c10_method_selection (p : EpubPath) (ms : List String) :
    ((ms = [] ∨ EXTRACTION_METHODS.filter (fun nm => ms.contains nm.1) = []) →
      ∃ m, parserInit p (some ms) = .error (.validationError m)) ∧
    (ms ≠ [] → EXTRACTION_METHODS.filter (fun nm => ms.contains nm.1) ≠ [] →
      validate_file p = .ok () →
      parserInit p (some ms)
        = .ok ⟨EXTRACTION_METHODS.filter (fun nm => ms.contains nm.1), none⟩) := by
  constructor
  · intro hcase
    cases hcase with
    | inl he =>
      subst he
      exact ⟨"No extraction methods specified", rfl⟩
    | inr hf =>
      by_cases he : ms = []
      · subst he
        exact ⟨"No extraction methods specified", rfl⟩
      · refine ⟨"No valid extraction methods found", ?_⟩
        have hne : ms.isEmpty = false := by
          cases ms with
          | nil => exact absurd rfl he
          | cons a l => rfl
        simp only [parserInit, hne, Bool.false_eq_true, if_false, hf]
        rfl
  · intro hne hf hv
    have hne' : ms.isEmpty = false := by
      cases ms with
      | nil => exact absurd rfl hne
      | cons a l => rfl
    have hf' : (EXTRACTION_METHODS.filter (fun nm => ms.contains nm.1)).isEmpty = false := by
      cases hx : EXTRACTION_METHODS.filter (fun nm => ms.contains nm.1) with
      | nil => exact absurd hx hf
      | cons a l => rfl
    simp only [parserInit, hne', hf', Bool.false_eq_true, if_false]
    rw [hv]
    rfl

/-- C10 witness: the amended theorem at a concrete recognized singleton
list on a well-formed path (success direction) and at the empty list
(error direction). -/
theorem c10_method_selection_witness :
    parserInit goodEpubPath (some ["ncx"])
      = .ok ⟨[("ncx", "_extract_from_ncx")], none⟩ ∧
    (∃ m, parserInit goodEpubPath (some []) = .error (.validationError m)) := by
  constructor
  · have h := (c10_method_selection goodEpubPath ["ncx"]).2
      (by decide) (by decide) rfl
    simpa using h
  · exact (c10_method_selection goodEpubPath []).1 (Or.inl rfl)

/-- C9 counterexample: an OPF document with an empty spine — all of whose
zero item-references vacuously resolve in the manifest — yields absent
(`None`), not the zero-length node sequence that "exactly one node per
spine item-reference" implies. -/
theorem c9_counterexample :
    extract_from_opf (some ⟨some [], some []⟩) = none ∧
    extract_from_opf (some ⟨some [], some []⟩) ≠ some [] := by
  refine ⟨rfl, ?_⟩
  intro h
  have h2 : (none : Option (List TOCItem)) = some [] := by
    calc (none : Option (List TOCItem))
        = extract_from_opf (some ⟨some [], some []⟩) := rfl
      _ = some [] := h
  exact Option.noConfusion h2

theorem opfSpineItems_resolved (m : List (String × String)) :
    ∀ (sp : List (Option String)) (i : Nat),
      (∀ x ∈ sp, (x.bind (fun r => dictGet? m r)).isSome = true) →
      (opfSpineItems m sp i).length = sp.length ∧
      ∀ (j : Nat) (hj : j < (opfSpineItems m sp i).length) (hs : j < sp.length),
        ((opfSpineItems m sp i).get ⟨j, hj⟩).title = "Chapter " ++ toString (i + j + 1) ∧
        ((opfSpineItems m sp i).get ⟨j, hj⟩).level = 0 ∧
        ((opfSpineItems m sp i).get ⟨j, hj⟩).children = [] ∧
        some ((opfSpineItems m sp i).get ⟨j, hj⟩).href
          = (sp.get ⟨j, hs⟩).bind (fun r => dictGet? m r) := by
  intro sp
  induction sp with
  | nil =>
    intro i _
    refine ⟨rfl, ?_⟩
    intro j hj
    simp [opfSpineItems] at hj
  | cons x rest ih =>
    intro i hres
    have hx := hres x (by simp)
    obtain ⟨h, hh⟩ := Option.isSome_iff_exists.mp hx
    have hrest := ih (i + 1) (fun y hy => hres y (List.mem_cons_of_mem _ hy))
    have hstep : opfSpineItems m (x :: rest) i
        = TOCItem.mk ("Chapter " ++ toString (i + 1)) h 0 [] none
            :: opfSpineItems m rest (i + 1) := by
      simp only [opfSpineItems, hh]
    rw [hstep]
    constructor
    · simpa using hrest.1
    · intro j hj hs
      cases j with
      | zero =>
        simp [TOCItem.title, TOCItem.level, TOCItem.children, TOCItem.href, hh]
      | succ jj =>
        have hj' : jj < (opfSpineItems m rest (i + 1)).length := by
          simpa using Nat.lt_of_succ_lt_succ hj
        have hs' : jj < rest.length := Nat.lt_of_succ_lt_succ hs
        have hr := hrest.2 jj hj' hs'
        have harith : i + 1 + jj + 1 = i + (jj + 1) + 1 := by omega
        rw [harith] at hr
        simpa using hr

/-- C9 (amended): for an OPF whose spine has at least one item-reference
and whose item-references all resolve in the manifest mapping, the OPF
backend returns exactly one node per item-reference, in spine order,
titled `"Chapter <position>"` with 1-based position, each at level 0 with
no children — never nested structure.  (With zero item-references it
returns absent rather than an empty sequence, forcing the non-emptiness
hypothesis.) -/
theorem c9_opf_flat (sp : List (Option String)) (mf : List (Option String × Option String))
    (hne : sp ≠ [])
    (hres : ∀ x ∈ sp, (x.bind (fun r => dictGet? (idToHref mf) r)).isSome = true) :
    ∃ l, extract_from_opf (some ⟨some sp, some mf⟩) = some l ∧
      l.length = sp.length ∧
      ∀ (j : Nat) (hj : j < l.length) (hs : j < sp.length),
        (l.get ⟨j, hj⟩).title = "Chapter " ++ toString (j + 1) ∧
        (l.get ⟨j, hj⟩).level = 0 ∧
        (l.get ⟨j, hj⟩).children = [] ∧
        some (l.get ⟨j, hj⟩).href = (sp.get ⟨j, hs⟩).bind (fun r => dictGet? (idToHref mf) r) := by
  have h := opfSpineItems_resolved (idToHref mf) sp 0 hres
  refine ⟨opfSpineItems (idToHref mf) sp 0, ?_, h.1, ?_⟩
  · have hlen : (opfSpineItems (idToHref mf) sp 0).isEmpty = false := by
      cases hx : opfSpineItems (idToHref mf) sp 0 with
      | nil =>
        have : sp.length = 0 := by
          have := h.1
          rw [hx] at this
          simpa using this.symm
        exact absurd (List.length_eq_zero.mp this) hne
      | cons a l => rfl
    simp only [extract_from_opf, hlen, Bool.false_eq_true, if_false]
  · intro j hj hs
    have := h.2 j hj hs
    simpa using this

/-- C9 witness: the amended theorem at a concrete three-item spine whose
item-references all resolve — three flat level-0 nodes titled
"Chapter 1".."Chapter 3" in spine order. -/
theorem c9_opf_flat_witness :
    ∃ l, extract_from_opf (some ⟨some [some "a", some "b", some "c"],
        some [(some "a", some "a.html"), (some "b", some "b.html"),
              (some "c", some "c.html")]⟩) = some l ∧
      l.length = [some "a", some "b", some "c"].length ∧
      ∀ (j : Nat) (hj : j < l.length) (hs : j < [some "a", some "b", some "c"].length),
        (l.get ⟨j, hj⟩).title = "Chapter " ++ toString (j + 1) ∧
        (l.get ⟨j, hj⟩).level = 0 ∧
        (l.get ⟨j, hj⟩).children = [] ∧
        some (l.get ⟨j, hj⟩).href
          = ([some "a", some "b", some "c"].get ⟨j, hs⟩).bind
              (fun r => dictGet? (idToHref [(some "a", some "a.html"),
                (some "b", some "b.html"), (some "c", some "c.html")]) r) :=
  c9_opf_flat _ _ (by decide) (by decide)

theorem withChildren_children (r : TOCItem) (cs : List TOCItem) :
    (r.withChildren cs).children = cs := by
  cases r; rfl

theorem withChildren_level (r : TOCItem) (cs : List TOCItem) :
    (r.withChildren cs).level = r.level := by
  cases r; rfl

theorem withChildren_withChildren (r : TOCItem) (cs ds : List TOCItem) :
    (r.withChildren cs).withChildren ds = r.withChildren ds := by
  cases r; rfl

theorem installLast_eq (parent cs : List TOCItem) (e : TOCItem)
    (h : parent.getLast? = some e) :
    installLast parent cs = parent.dropLast ++ [e.withChildren cs] := by
  simp [installLast, h]

theorem specAttach_stop (x r : TOCItem) (cs : List TOCItem) (h : stopsAt cs x.level) :
    specAttach x (r.withChildren cs) = r.withChildren (cs ++ [x]) := by
  rw [specAttach]
  split
  · rename_i c heq
    rw [withChildren_children] at heq
    cases h with
    | inl he =>
      rw [he] at heq
      simp at heq
    | inr he =>
      obtain ⟨e, hlast, hle⟩ := he
      rw [hlast] at heq
      injection heq with hce
      subst hce
      rw [if_neg (not_lt.mpr hle)]
      simp [withChildren_children, withChildren_withChildren]
  · simp [withChildren_children, withChildren_withChildren]

theorem specAttach_descend (x r : TOCItem) (cs : List TOCItem) (e : TOCItem)
    (he : cs.getLast? = some e) (hlt : e.level < x.level) :
    specAttach x (r.withChildren cs) = r.withChildren (cs.dropLast ++ [specAttach x e]) := by
  rw [specAttach]
  split
  · rename_i c heq
    rw [withChildren_children, he] at heq
    injection heq with hce
    subst hce
    rw [if_pos hlt]
    simp [withChildren_children, withChildren_withChildren]
  · rename_i heq
    rw [withChildren_children, he] at heq
    cases heq

theorem chain_replace_top (csA csB : List TOCItem) (l : Int) (t : List Frame)
    (h : List.Chain' frameRel ((csA, l) :: t)) :
    List.Chain' frameRel ((csB, l) :: t) := by
  cases t with
  | nil => exact List.chain'_singleton _
  | cons u rest =>
    rw [List.chain'_cons] at h ⊢
    exact ⟨h.1, h.2⟩

theorem closeAll_single (cs : List TOCItem) (l : Int) : closeAll [(cs, l)] = cs := by
  rw [closeAll]

theorem closeAll_cons_cons (cs : List TOCItem) (x : Int) (cs' : List TOCItem) (l' : Int)
    (rest : List Frame) :
    closeAll ((cs, x) :: (cs', l') :: rest) = closeAll ((installLast cs' cs, l') :: rest) := by
  rw [closeAll]

theorem closeAll_spec_descend (x : TOCItem) :
    ∀ (rest : List Frame) (g : List TOCItem) (e : TOCItem) (l' : Int),
      g.getLast? = some e → e.level < x.level →
      List.Chain' frameRel ((g, l') :: rest) → l' < x.level →
      closeAll ((g.dropLast ++ [specAttach x e], l') :: rest)
        = specInsert (closeAll ((g, l') :: rest)) x := by
  intro rest
  induction rest with
  | nil =>
    intro g e l' he hlt _ _
    rw [closeAll_single, closeAll_single]
    simp only [specInsert, he, hlt, if_true]
  | cons frame rest3 ih =>
    intro g e l' he hlt hchain hl'
    obtain ⟨cs'', l''⟩ := frame
    have hrel : frameRel (g, l') (cs'', l'') := (List.chain'_cons.mp hchain).1
    obtain ⟨hlvl, e'', he'', helvl⟩ := hrel
    have hchain2 : List.Chain' frameRel ((cs'', l'') :: rest3) := (List.chain'_cons.mp hchain).2
    rw [closeAll_cons_cons, closeAll_cons_cons]
    rw [installLast_eq cs'' _ e'' he'', installLast_eq cs'' _ e'' he'']
    have hA2 : specAttach x (e''.withChildren g)
        = e''.withChildren (g.dropLast ++ [specAttach x e]) :=
      specAttach_descend x e'' g e he hlt
    rw [← hA2]
    have hG : (cs''.dropLast ++ [e''.withChildren g]).getLast? = some (e''.withChildren g) :=
      List.getLast?_concat _
    have hGdrop : (cs''.dropLast ++ [e''.withChildren g]).dropLast = cs''.dropLast :=
      List.dropLast_concat
    have hGchain : List.Chain' frameRel ((cs''.dropLast ++ [e''.withChildren g], l'') :: rest3) :=
      chain_replace_top cs'' _ l'' rest3 hchain2
    have hGlvl : (e''.withChildren g).level < x.level := by
      rw [withChildren_level, helvl]
      exact hl'
    have := ih (cs''.dropLast ++ [e''.withChildren g]) (e''.withChildren g) l''
      hG hGlvl hGchain (lt_trans hlvl hl')
    rw [hGdrop] at this
    exact this

theorem closeAll_spec_insert (x : TOCItem) :
    ∀ (rest : List Frame) (cs : List TOCItem) (l : Int),
      stopsAt cs x.level → List.Chain' frameRel ((cs, l) :: rest) → l < x.level →
      closeAll ((cs ++ [x], l) :: rest) = specInsert (closeAll ((cs, l) :: rest)) x := by
  intro rest
  cases rest with
  | nil =>
    intro cs l hstop _ _
    rw [closeAll_single, closeAll_single]
    cases hstop with
    | inl he => subst he; rfl
    | inr he =>
      obtain ⟨e, hlast, hle⟩ := he
      simp only [specInsert, hlast, not_lt.mpr hle, if_false]
  | cons frame rest2 =>
    intro cs l hstop hchain hl
    obtain ⟨cs', l'⟩ := frame
    obtain ⟨hlvl, e', he', helvl⟩ := (List.chain'_cons.mp hchain).1
    have hchain2 : List.Chain' frameRel ((cs', l') :: rest2) := (List.chain'_cons.mp hchain).2
    rw [closeAll_cons_cons, closeAll_cons_cons]
    rw [installLast_eq cs' _ e' he', installLast_eq cs' _ e' he']
    have hA1 : specAttach x (e'.withChildren cs) = e'.withChildren (cs ++ [x]) :=
      specAttach_stop x e' cs hstop
    rw [← hA1]
    have hG : (cs'.dropLast ++ [e'.withChildren cs]).getLast? = some (e'.withChildren cs) :=
      List.getLast?_concat _
    have hGdrop : (cs'.dropLast ++ [e'.withChildren cs]).dropLast = cs'.dropLast :=
      List.dropLast_concat
    have hGchain : List.Chain' frameRel ((cs'.dropLast ++ [e'.withChildren cs], l') :: rest2) :=
      chain_replace_top cs' _ l' rest2 hchain2
    have hGlvl : (e'.withChildren cs).level < x.level := by
      rw [withChildren_level, helvl]
      exact hl
    have := closeAll_spec_descend x rest2 (cs'.dropLast ++ [e'.withChildren cs])
      (e'.withChildren cs) l' hG hGlvl hGchain (lt_trans hlvl hl)
    rw [hGdrop] at this
    exact this

theorem popFrames_stop (lvl l : Int) (cs : List TOCItem) (rest : List Frame)
    (h : ¬ lvl ≤ l) : popFrames lvl ((cs, l) :: rest) = (cs, l) :: rest := by
  cases rest with
  | nil => simp [popFrames, h]
  | cons frame rest2 =>
    rw [popFrames]
    simp [h]

theorem popFrames_pop (lvl l : Int) (cs cs' : List TOCItem) (l' : Int) (rest2 : List Frame)
    (h : lvl ≤ l) :
    popFrames lvl ((cs, l) :: (cs', l') :: rest2)
      = popFrames lvl ((installLast cs' cs, l') :: rest2) := by
  rw [popFrames]
  simp [h]

theorem make_ok (t h : String) (lvl : Int) (ht : t ≠ "") (h0 : 0 ≤ lvl) :
    TOCItem.make t h lvl none = .ok (TOCItem.mk t h lvl [] none) := by
  simp [TOCItem.make, validate_fields, ht, not_lt.mpr h0, Except.bind]

theorem stackStep_nopop (rest : List Frame) (cs : List TOCItem) (l : Int)
    (t h : String) (lvl : Int)
    (ht : t ≠ "") (h0 : 0 ≤ lvl) (hle : ¬ lvl ≤ l)
    (hWF : WFStack ((cs, l) :: rest)) (hstop : stopsAt cs lvl) :
    stackStep t h lvl ((cs, l) :: rest)
      = .ok (([], lvl) :: (cs ++ [TOCItem.mk t h lvl [] none], l) :: rest) ∧
    closeAll (([], lvl) :: (cs ++ [TOCItem.mk t h lvl [] none], l) :: rest)
      = specInsert (closeAll ((cs, l) :: rest)) (TOCItem.mk t h lvl [] none) ∧
    WFStack (([], lvl) :: (cs ++ [TOCItem.mk t h lvl [] none], l) :: rest) := by
  refine ⟨?_, ?_, ?_, ?_⟩
  · simp only [stackStep, popFrames_stop lvl l cs rest hle, make_ok t h lvl ht h0]
    rfl
  · rw [closeAll_cons_cons]
    rw [installLast_eq _ _ (TOCItem.mk t h lvl [] none) (List.getLast?_concat _)]
    rw [List.dropLast_concat]
    have hx : (TOCItem.mk t h lvl [] none).withChildren [] = TOCItem.mk t h lvl [] none := rfl
    rw [hx]
    exact closeAll_spec_insert (TOCItem.mk t h lvl [] none) rest cs l hstop hWF.1
      (not_le.mp hle)
  · exact List.chain'_cons.mpr
      ⟨⟨not_le.mp hle, TOCItem.mk t h lvl [] none, List.getLast?_concat _, rfl⟩,
       chain_replace_top cs _ l rest hWF.1⟩
  · have h2 := hWF.2
    simp only [List.map_cons] at h2 ⊢
    rw [List.getLast?_cons_cons]
    exact h2

theorem stackStep_correct :
    ∀ (N : Nat) (rest : List Frame) (cs : List TOCItem) (l : Int) (t h : String) (lvl : Int),
      rest.length ≤ N → t ≠ "" → 0 ≤ lvl → WFStack ((cs, l) :: rest) → stopsAt cs lvl →
      ∃ cs2 l2 rest2,
        stackStep t h lvl ((cs, l) :: rest)
          = .ok (([], lvl) :: (cs2 ++ [TOCItem.mk t h lvl [] none], l2) :: rest2) ∧
        closeAll (([], lvl) :: (cs2 ++ [TOCItem.mk t h lvl [] none], l2) :: rest2)
          = specInsert (closeAll ((cs, l) :: rest)) (TOCItem.mk t h lvl [] none) ∧
        WFStack (([], lvl) :: (cs2 ++ [TOCItem.mk t h lvl [] none], l2) :: rest2) := by
  intro N
  induction N with
  | zero =>
    intro rest cs l t h lvl hlen ht h0 hWF hstop
    have hrest : rest = [] := List.length_eq_zero.mp (Nat.le_zero.mp hlen)
    subst hrest
    have hl : l = -1 := by
      have := hWF.2
      simp at this
      exact this
    have hle : ¬ lvl ≤ l := by omega
    obtain ⟨h1, h2, h3⟩ := stackStep_nopop [] cs l t h lvl ht h0 hle hWF hstop
    exact ⟨cs, l, [], h1, h2, h3⟩
  | succ N ih =>
    intro rest cs l t h lvl hlen ht h0 hWF hstop
    by_cases hle : lvl ≤ l
    · cases rest with
      | nil =>
        have hl : l = -1 := by
          have := hWF.2
          simp at this
          exact this
        omega
      | cons frame rest2 =>
        obtain ⟨cs', l'⟩ := frame
        obtain ⟨hlvl', e', he', helvl'⟩ := (List.chain'_cons.mp hWF.1).1
        have hchain2 : List.Chain' frameRel ((cs', l') :: rest2) :=
          (List.chain'_cons.mp hWF.1).2
        have hWF2 : WFStack ((installLast cs' cs, l') :: rest2) := by
          refine ⟨chain_replace_top cs' _ l' rest2 hchain2, ?_⟩
          have h2 := hWF.2
          simp only [List.map_cons] at h2 ⊢
          rw [List.getLast?_cons_cons] at h2
          exact h2
        have hstop2 : stopsAt (installLast cs' cs) lvl := by
          right
          refine ⟨e'.withChildren cs, ?_, ?_⟩
          · rw [installLast_eq cs' cs e' he']
            exact List.getLast?_concat _
          · rw [withChildren_level, helvl']
            exact hle
        have hlen2 : rest2.length ≤ N := by
          simp only [List.length_cons] at hlen
          omega
        obtain ⟨cs2, l2, rest3, heq, hclose, hWF'⟩ :=
          ih rest2 (installLast cs' cs) l' t h lvl hlen2 ht h0 hWF2 hstop2
        have hstep_eq : stackStep t h lvl ((cs, l) :: (cs', l') :: rest2)
            = stackStep t h lvl ((installLast cs' cs, l') :: rest2) := by
          simp only [stackStep, popFrames_pop lvl l cs cs' l' rest2 hle]
        refine ⟨cs2, l2, rest3, ?_, ?_, hWF'⟩
        · rw [hstep_eq]
          exact heq
        · rw [hclose, closeAll_cons_cons]
    · obtain ⟨h1, h2, h3⟩ := stackStep_nopop rest cs l t h lvl ht h0 hle hWF hstop
      exact ⟨cs, l, rest, h1, h2, h3⟩

theorem stackLoop_correct :
    ∀ (items : List (String × String × Int)) (s : List Frame),
      (∀ it ∈ items, it.1 ≠ "" ∧ 0 ≤ it.2.2) →
      WFStack s → (∃ l0 rest0, s = ([], l0) :: rest0) →
      ∃ sFin,
        List.foldlM (fun st it => stackStep it.1 it.2.1 it.2.2 st) s items = .ok sFin ∧
        closeAll sFin
          = items.foldl (fun f it => specInsert f (TOCItem.mk it.1 it.2.1 it.2.2 [] none))
              (closeAll s) := by
  intro items
  induction items with
  | nil =>
    intro s _ _ _
    exact ⟨s, rfl, rfl⟩
  | cons it rest ih =>
    intro s hval hWF hshape
    obtain ⟨l0, rest0, rfl⟩ := hshape
    have hv := hval it (by simp)
    obtain ⟨cs2, l2, rest2, heq, hclose, hWF'⟩ :=
      stackStep_correct rest0.length rest0 [] l0 it.1 it.2.1 it.2.2 le_rfl
        hv.1 hv.2 hWF (Or.inl rfl)
    obtain ⟨sFin, hfold, hcl⟩ :=
      ih (([], it.2.2) :: (cs2 ++ [TOCItem.mk it.1 it.2.1 it.2.2 [] none], l2) :: rest2)
        (fun y hy => hval y (List.mem_cons_of_mem _ hy)) hWF'
        ⟨it.2.2, (cs2 ++ [TOCItem.mk it.1 it.2.1 it.2.2 [] none], l2) :: rest2, rfl⟩
    refine ⟨sFin, ?_, ?_⟩
    · rw [List.foldlM_cons, heq, exceptBindOk]
      exact hfold
    · rw [hcl, hclose, List.foldl_cons]

/-- C8 counterexample: the reconstruction is not total on every flat,
level-tagged sequence — an entry with an empty title makes the in-loop
`TOCItem` constructor raise ValidationError (the backend then reports
absent), so no attachment at all happens, while the claim's description
would make that entry a top-level root. -/
theorem c8_counterexample :
    stackBuild [("", "h.html", 0)]
      = .error (.validationError "Title must be a non-empty string") ∧
    specBuild [("", "h.html", 0)] = [TOCItem.mk "" "h.html" 0 [] none] := by
  constructor
  · have hp : popFrames 0 [(([] : List TOCItem), (-1 : Int))] = [([], -1)] :=
      popFrames_stop 0 (-1) [] [] (by omega)
    have hs : stackStep "" "h.html" 0 [(([] : List TOCItem), (-1 : Int))]
        = .error (.validationError "Title must be a non-empty string") := by
      simp only [stackStep, hp]
      simp [TOCItem.make, validate_fields, Except.bind]
    simp only [stackBuild, List.foldlM_cons, hs, exceptBindError, List.foldlM_nil]
  · rfl

/-- C8: on every flat, level-tagged `(title, href, level)` sequence whose
items pass field validation, the stack-based reconstruction used
identically by the `epub_meta` backend and the `calibre` backend
(`stackBuild`, shared verbatim by both loops) produces exactly the
forest described by the claim: each item is attached as a child of the
most recent preceding item whose level is strictly smaller — the stack is
popped while its top's level is ≥ the current item's level — or becomes a
new top-level root when no such item remains, preserving input order
(the spec-side `specBuild`). -/
theorem c8_stack_reconstruction (items : List (String × String × Int))
    (h : ∀ it ∈ items, it.1 ≠ "" ∧ 0 ≤ it.2.2) :
    stackBuild items = .ok (specBuild items) := by
  have hWF0 : WFStack [(([] : List TOCItem), (-1 : Int))] :=
    ⟨List.chain'_singleton _, by simp⟩
  obtain ⟨sFin, hfold, hclose⟩ := stackLoop_correct items [([], -1)] h hWF0
    ⟨-1, [], rfl⟩
  simp only [stackBuild, hfold, exceptBindOk]
  rw [hclose, closeAll_single]
  rfl

/-- C8 witness: the shared reconstruction at a concrete sequence whose
levels go 0, 2, 1 — exercising both attachment under a smaller-level
item and a pop past an equal-or-deeper entry. -/
theorem c8_stack_reconstruction_witness :
    stackBuild [("A", "a.html", 0), ("B", "b.html", 2), ("C", "c.html", 1)]
      = .ok (specBuild [("A", "a.html", 0), ("B", "b.html", 2), ("C", "c.html", 1)]) :=
  c8_stack_reconstruction _ (by decide)

end EpubToc
